import Mathlib

/-!
Shallow embedding of the go-utils repository (src/slice.go): the sequence
utilities (`Combination`, `Map`, `Select`) of package `utils` and the
`ArrayList` dynamic list of package `arraylist`.

Go `interface{}` values are modelled by the inductive `GoVal`: a boxed int,
the nil interface value, or a slice of values. `reflect.DeepEqual` on this
value universe is structural equality, i.e. decidable equality of `GoVal`.
A Go runtime panic (an abort that is not an error return) is modelled by
`Option.none` at the function's result type.
-/

namespace GoUtils

/-- A Go `interface{}` value: an int, the nil interface, or a slice. -/
inductive GoVal where
  | int : Int → GoVal
  | nil : GoVal
  | slice : List GoVal → GoVal

mutual

/-- Structural (deep) equality on `GoVal`, the model of `reflect.DeepEqual`
on this value universe. -/
def GoVal.decEq : (a b : GoVal) → Decidable (a = b)
  | .int m, .int n =>
    if h : m = n then isTrue (by rw [h]) else isFalse (fun hh => h (by cases hh; rfl))
  | .int _, .nil => isFalse nofun
  | .int _, .slice _ => isFalse nofun
  | .nil, .int _ => isFalse nofun
  | .nil, .nil => isTrue rfl
  | .nil, .slice _ => isFalse nofun
  | .slice _, .int _ => isFalse nofun
  | .slice _, .nil => isFalse nofun
  | .slice xs, .slice ys =>
    match GoVal.decEqList xs ys with
    | isTrue h => isTrue (by rw [h])
    | isFalse h => isFalse (fun hh => h (by cases hh; rfl))
termination_by a => sizeOf a

/-- Elementwise structural equality on lists of `GoVal`. -/
def GoVal.decEqList : (xs ys : List GoVal) → Decidable (xs = ys)
  | [], [] => isTrue rfl
  | [], _ :: _ => isFalse nofun
  | _ :: _, [] => isFalse nofun
  | x :: xs, y :: ys =>
    match GoVal.decEq x y with
    | isFalse h => isFalse (fun hh => h (by cases hh; rfl))
    | isTrue h1 =>
      match GoVal.decEqList xs ys with
      | isTrue h2 => isTrue (by rw [h1, h2])
      | isFalse h2 => isFalse (fun hh => h2 (by cases hh; rfl))
termination_by xs => sizeOf xs

end

instance : DecidableEq GoVal := GoVal.decEq

/-- The sentinel errors of package `utils` (`NotSliceErr`, `NilMapFuncErr`,
`NilSelectFuncErr`, `ElemNotFoundErr`). -/
inductive GoErr where
  | notSlice
  | nilMapFunc
  | nilSelectFunc
  | elemNotFound
deriving DecidableEq, Repr

/-- `reflect.ValueOf(v).Kind() == reflect.Slice`. -/
def isSliceVal : GoVal → Bool
  | .slice _ => true
  | _ => false

mutual

/-- The recursive helper `combination` of src/slice.go. `rest` is
`slices[depthLevel:]` (the suffix of the argument list from the current
depth level); `buf` is the working buffer `singleCombination`; `combs` is
the accumulated `*combinations`. `slicesValue.Index(depthLevel)` panics
(result `none`) when `depthLevel` is past the end, i.e. when `rest = []`.
If the current argument is not a slice, `NotSliceErr` is returned; note
that the recursive call inside the loop discards the returned error, as
the source does at line 134. -/
def combination (rest : List GoVal) (depth : Nat) (buf : List GoVal)
    (combs : List (List GoVal)) :
    Option (List GoVal × List (List GoVal) × Option GoErr) :=
  match rest with
  | [] => none
  | GoVal.slice s :: rest2 => combLoop rest2 depth buf combs s
  | _ :: _ => some (buf, combs, some GoErr.notSlice)
termination_by sizeOf rest

/-- The `for i` loop body of `combination`: iterate the current slice's
elements `elems`, writing each into the buffer at index `depth`; when
`depthLevel+1 < slicesValue.Len()` (i.e. `rest2 ≠ []`) recurse, discarding
the returned error but keeping the mutations; otherwise append a copy of
the buffer to the result. -/
def combLoop (rest2 : List GoVal) (depth : Nat) (buf : List GoVal)
    (combs : List (List GoVal)) (elems : List GoVal) :
    Option (List GoVal × List (List GoVal) × Option GoErr) :=
  match elems, rest2 with
  | [], _ => some (buf, combs, none)
  | x :: xs, [] => combLoop [] depth (buf.set depth x)
      (combs ++ [buf.set depth x]) xs
  | x :: xs, w :: rest3 =>
    match combination (w :: rest3) (depth + 1) (buf.set depth x) combs with
    | none => none
    | some (buf2, combs2, _) => combLoop (w :: rest3) depth buf2 combs2 xs
termination_by sizeOf rest2 + sizeOf elems

end

/-- `Combination` of src/slice.go. The variadic parameter
`slices ...interface{}` always reflects as a slice, so the `Kind` check at
line 29 always passes; `singleCombination` is `make([]interface{}, N)`, a
buffer of `N` nil interface values. A `none` result models the Go runtime
panic raised by `slicesValue.Index(0)` when `N = 0`. -/
def Combination (args : List GoVal) : Option (List (List GoVal) × Option GoErr) :=
  match combination args 0 (List.replicate args.length GoVal.nil) [] with
  | none => none
  | some (_, combs, err) => some (combs, err)

/-- `Map` of src/slice.go. The collection's slice-kind check comes before
the nil-callback check, exactly as in the source (lines 81-88). The
callback `MapFunc` is a Go function value, nil when `none`. -/
def Map (collection : GoVal) (mapFunc : Option (GoVal → GoVal)) :
    List GoVal × Option GoErr :=
  match collection with
  | .slice xs =>
    match mapFunc with
    | none => ([], some GoErr.nilMapFunc)
    | some f => (xs.map f, none)
  | _ => ([], some GoErr.notSlice)

/-- `Select` of src/slice.go. The collection's slice-kind check comes
before the nil-callback check (lines 103-110); kept elements are those on
which the predicate returns true, in order. -/
def Select (collection : GoVal) (selectFunc : Option (GoVal → Bool)) :
    List GoVal × Option GoErr :=
  match collection with
  | .slice xs =>
    match selectFunc with
    | none => ([], some GoErr.nilSelectFunc)
    | some f => (xs.filter f, none)
  | _ => ([], some GoErr.notSlice)

mutual

/-- The rendering `fmt.Sprintf("%v", v)` of a `GoVal`: ints print in
decimal, the nil interface prints `<nil>`, slices print bracketed and
space-separated. -/
def goRender : GoVal → String
  | .int n => toString n
  | .nil => "<nil>"
  | .slice xs => "[" ++ goRenderList xs ++ "]"
termination_by v => sizeOf v

/-- Space-separated rendering of a slice's elements, as `fmt` does. -/
def goRenderList : List GoVal → String
  | [] => ""
  | [x] => goRender x
  | x :: y :: xs => goRender x ++ " " ++ goRenderList (y :: xs)
termination_by xs => sizeOf xs

end

/-!
The `ArrayList` of the arraylist package. Its single field `slice
[]interface{}` is the state, so the embedding passes the element list
explicitly and each mutating method returns the new list together with
the returned error (`Option String`, the message built by `errors.New`).
Positions are Go `int`, modelled as `Int`.
-/

/-- `elementNotFoundErr` of the arraylist package:
`fmt.Sprintf("%v element was not found in this list.", obj)`. -/
def elementNotFoundErr (obj : GoVal) : String :=
  goRender obj ++ " element was not found in this list."

/-- `indexOutOfRangeErr` of the arraylist package:
`fmt.Sprintf("Index %d is out of range from a list size of %d", pos, listSize)`. -/
def indexOutOfRangeErr (pos listSize : Int) : String :=
  "Index " ++ toString pos ++ " is out of range from a list size of " ++ toString listSize

/-- `Size`: `len(a.slice)`, a Go `int`. -/
def Size (l : List GoVal) : Int := l.length

/-- `checkRange`: error when `pos > a.Size()-1 || pos < 0`. -/
def checkRange (l : List GoVal) (pos : Int) : Option String :=
  if pos > Size l - 1 ∨ pos < 0 then some (indexOutOfRangeErr pos (Size l)) else none

/-- `checkRangeForAddAt`: error when `pos > a.Size() || pos < 0`. -/
def checkRangeForAddAt (l : List GoVal) (pos : Int) : Option String :=
  if pos > Size l ∨ pos < 0 then some (indexOutOfRangeErr pos (Size l)) else none

/-- `Add`: append the elements at the end. -/
def Add (l objs : List GoVal) : List GoVal := l ++ objs

/-- `AddFirst`: `a.slice = append(objs, a.slice...)`, i.e. prepend. -/
def AddFirst (l objs : List GoVal) : List GoVal := objs ++ l

/-- The private `addAt`:
`append(append(append([]interface{}{}, a.slice[:pos]...), elements...), a.slice[pos:]...)`. -/
def addAt (l : List GoVal) (pos : Int) (objs : List GoVal) : List GoVal :=
  (l.take pos.toNat ++ objs) ++ l.drop pos.toNat

/-- `AddAt`: range check, then the source's switch delegating to
`AddFirst` when `pos == 0`, to `Add` when `pos == a.Size()`, and to the
private `addAt` otherwise. -/
def AddAt (l : List GoVal) (pos : Int) (objs : List GoVal) :
    List GoVal × Option String :=
  match checkRangeForAddAt l pos with
  | some e => (l, some e)
  | none =>
    if pos = 0 then (AddFirst l objs, none)
    else if pos = Size l then (Add l objs, none)
    else (addAt l pos objs, none)

/-- `Get`: on a range error the source returns `nil` together with a
freshly built `indexOutOfRangeErr(pos, a.Size())`; otherwise the element
`a.slice[pos]`. -/
def Get (l : List GoVal) (pos : Int) : GoVal × Option String :=
  match checkRange l pos with
  | some _ => (GoVal.nil, some (indexOutOfRangeErr pos (Size l)))
  | none => (l.getD pos.toNat GoVal.nil, none)

/-- The forward scan of `IndexOf`: `for i, o := range a.slice`, comparing
with `reflect.DeepEqual`, returning the running index on the first match. -/
def indexOfAux (obj : GoVal) : List GoVal → Nat → Int
  | [], _ => -1
  | x :: xs, i => if x = obj then (i : Int) else indexOfAux obj xs (i + 1)

/-- `IndexOf`: index of the first structurally equal occurrence, `-1` when
absent. -/
def IndexOf (l : List GoVal) (obj : GoVal) : Int := indexOfAux obj l 0

/-- The backward scan of `LastIndexOf`: `for i := a.Size() - 1; i > -1; i--`.
The counter argument `n` is one more than the Go loop variable `i`, so `0`
is loop exit. -/
def lastIndexOfAux (l : List GoVal) (obj : GoVal) : Nat → Int
  | 0 => -1
  | n + 1 => if l.getD n GoVal.nil = obj then (n : Int) else lastIndexOfAux l obj n

/-- `LastIndexOf`: index of the last structurally equal occurrence, `-1`
when absent. -/
def LastIndexOf (l : List GoVal) (obj : GoVal) : Int := lastIndexOfAux l obj l.length

/-- `RemoveAt`: range check, then
`a.slice = append(a.slice[:pos], a.slice[pos+1:]...)` (the `a.slice[pos] = nil`
write is immediately overwritten by the append and never observable). -/
def RemoveAt (l : List GoVal) (pos : Int) : List GoVal × Option String :=
  match checkRange l pos with
  | some e => (l, some e)
  | none => (l.take pos.toNat ++ l.drop (pos.toNat + 1), none)

/-- The scan of `Remove`: `for i, o := range a.slice`; on the first
structural match it returns `a.RemoveAt(i)` immediately, otherwise
`elementNotFoundErr(obj)`. `l` is the whole list the loop ranges over. -/
def removeAux (l : List GoVal) (obj : GoVal) : List GoVal → Nat → List GoVal × Option String
  | [], _ => (l, some (elementNotFoundErr obj))
  | x :: xs, i => if x = obj then RemoveAt l (i : Int) else removeAux l obj xs (i + 1)

/-- `Remove`: remove the first occurrence of `obj` by structural equality. -/
def Remove (l : List GoVal) (obj : GoVal) : List GoVal × Option String :=
  removeAux l obj l 0

/-- Specification-side Cartesian product of a list of sequences, in
row-major (outer varies slowest) order, used to state what `combination`
computes. -/
def cartProd : List (List GoVal) → List (List GoVal)
  | [] => [[]]
  | s :: rest => s.flatMap (fun a => (cartProd rest).map (fun t => a :: t))

/-! ### Helper lemmas about buffer writes and the product -/

theorem set_split (buf : List GoVal) (depth : Nat) (x : GoVal) (h : depth < buf.length) :
    buf.set depth x = buf.take depth ++ x :: buf.drop (depth + 1) := by
  rw [List.set_eq_take_append_cons_drop, if_pos h]

theorem set_last_of_length (buf : List GoVal) (depth : Nat) (x : GoVal)
    (h : buf.length = depth + 1) :
    buf.set depth x = buf.take depth ++ [x] := by
  rw [set_split buf depth x (by omega), List.drop_eq_nil_of_le (by omega)]

theorem take_set_self (buf : List GoVal) (depth : Nat) (x : GoVal) :
    (buf.set depth x).take depth = buf.take depth := by
  rw [List.set_take]
  exact List.set_eq_of_length_le (by simp)

theorem take_succ_set (buf : List GoVal) (depth : Nat) (x : GoVal) (h : depth < buf.length) :
    (buf.set depth x).take (depth + 1) = buf.take depth ++ [x] := by
  have hl : (buf.take depth).length = depth := by simp; omega
  rw [set_split buf depth x h]
  conv_lhs => rw [show depth + 1 = (buf.take depth).length + 1 by omega]
  rw [List.take_append]
  simp

theorem take_of_take_succ {l1 l2 : List GoVal} {d : Nat}
    (h : l1.take (d + 1) = l2.take (d + 1)) : l1.take d = l2.take d := by
  have h2 := congrArg (List.take d) h
  simpa [List.take_take, Nat.min_eq_left (Nat.le_succ d)] using h2

theorem cartProd_singleton (s : List GoVal) : cartProd [s] = s.map (fun a => [a]) := by
  induction s with
  | nil => rfl
  | cons a s ih => simpa [cartProd, List.flatMap_cons] using ih

theorem cartProd_pair (A B : List GoVal) :
    cartProd [A, B] = A.flatMap (fun a => B.map (fun b => [a, b])) := by
  show A.flatMap (fun a => (cartProd [B]).map (fun t => a :: t)) = _
  rw [cartProd_singleton]
  simp [List.map_map, Function.comp_def]

theorem flatMap_const_nil (s : List GoVal) :
    (s.flatMap fun _ => ([] : List (List GoVal))) = [] := by
  induction s with
  | nil => rfl
  | cons a s ih => simp [List.flatMap_cons, ih]

theorem cartProd_of_mem_nil : ∀ ls : List (List GoVal), [] ∈ ls → cartProd ls = [] := by
  intro ls h
  induction ls with
  | nil => cases h
  | cons s ls ih =>
    rcases List.mem_cons.1 h with h1 | h2
    · subst h1; rfl
    · simp [cartProd, ih h2, flatMap_const_nil]

/-! ### What `combination` computes -/

theorem combLoop_final (depth : Nat) :
    ∀ (elems buf : List GoVal) (combs : List (List GoVal)),
      buf.length = depth + 1 →
      ∃ buf2,
        combLoop [] depth buf combs elems =
          some (buf2, combs ++ elems.map (fun x => buf.take depth ++ [x]), none) ∧
        buf2.length = buf.length ∧ buf2.take depth = buf.take depth := by
  intro elems
  induction elems with
  | nil => intro buf combs _; exact ⟨buf, by simp [combLoop], rfl, rfl⟩
  | cons x xs ih =>
    intro buf combs h
    obtain ⟨buf2, heq, hlen, htake⟩ :=
      ih (buf.set depth x) (combs ++ [buf.set depth x]) (by simp [h])
    refine ⟨buf2, ?_, by simpa using hlen, by rw [htake, take_set_self]⟩
    rw [combLoop, heq, take_set_self, set_last_of_length buf depth x h]
    simp

theorem combLoop_rec (s2 : List GoVal) (ls3 : List (List GoVal)) (depth : Nat)
    (H : ∀ (buf : List GoVal) (combs : List (List GoVal)),
      buf.length = (depth + 1) + (ls3.length + 1) →
      ∃ buf2,
        combination ((s2 :: ls3).map GoVal.slice) (depth + 1) buf combs =
          some (buf2, combs ++ (cartProd (s2 :: ls3)).map (fun t => buf.take (depth + 1) ++ t),
            none) ∧
        buf2.length = buf.length ∧ buf2.take (depth + 1) = buf.take (depth + 1)) :
    ∀ (elems buf : List GoVal) (combs : List (List GoVal)),
      buf.length = depth + (ls3.length + 2) →
      ∃ buf2,
        combLoop ((s2 :: ls3).map GoVal.slice) depth buf combs elems =
          some (buf2,
            combs ++ elems.flatMap
              (fun a => (cartProd (s2 :: ls3)).map (fun t => buf.take depth ++ a :: t)),
            none) ∧
        buf2.length = buf.length ∧ buf2.take depth = buf.take depth := by
  intro elems
  induction elems with
  | nil => intro buf combs _; exact ⟨buf, by simp [combLoop], rfl, rfl⟩
  | cons x xs ih =>
    intro buf combs hlen
    have hd : depth < buf.length := by omega
    obtain ⟨buf2, heq, hlen2, htake2⟩ :=
      H (buf.set depth x) combs (by simp; omega)
    obtain ⟨buf3, heq3, hlen3, htake3⟩ :=
      ih buf2 (combs ++ (cartProd (s2 :: ls3)).map
        (fun t => (buf.set depth x).take (depth + 1) ++ t))
        (by rw [hlen2]; simpa using hlen)
    have htk : buf2.take depth = buf.take depth := by
      have h1 := take_of_take_succ htake2
      rw [h1, take_set_self]
    refine ⟨buf3, ?_, by rw [hlen3, hlen2]; simp, by rw [htake3, htk]⟩
    simp only [List.map_cons] at heq heq3 ⊢
    have hstep :
        combLoop (GoVal.slice s2 :: ls3.map GoVal.slice) depth buf combs (x :: xs) =
          combLoop (GoVal.slice s2 :: ls3.map GoVal.slice) depth buf2
            (combs ++ (cartProd (s2 :: ls3)).map
              (fun t => (buf.set depth x).take (depth + 1) ++ t)) xs := by
      rw [combLoop, heq]
    rw [hstep, heq3, htk, take_succ_set buf depth x hd]
    simp [List.flatMap_cons]

theorem combination_slices (ls : List (List GoVal)) :
    ∀ (depth : Nat) (buf : List GoVal) (combs : List (List GoVal)),
      ls ≠ [] →
      buf.length = depth + ls.length →
      ∃ buf2,
        combination (ls.map GoVal.slice) depth buf combs =
          some (buf2, combs ++ (cartProd ls).map (fun t => buf.take depth ++ t), none) ∧
        buf2.length = buf.length ∧ buf2.take depth = buf.take depth := by
  induction ls with
  | nil => intro _ _ _ h _; exact absurd rfl h
  | cons s ls2 ih =>
    intro depth buf combs _ hlen
    cases ls2 with
    | nil =>
      obtain ⟨buf2, heq, hl2, ht2⟩ :=
        combLoop_final depth s buf combs (by simpa using hlen)
      refine ⟨buf2, ?_, hl2, ht2⟩
      rw [List.map_cons, List.map_nil, combination, heq, cartProd_singleton]
      simp [List.map_map, Function.comp]
    | cons s2 ls3 =>
      obtain ⟨buf2, heq, hl2, ht2⟩ :=
        combLoop_rec s2 ls3 depth
          (fun b c hb => ih (depth + 1) b c (by simp)
            (by simp only [List.length_cons]; omega)) s buf combs
          (by simp only [List.length_cons] at hlen ⊢; omega)
      refine ⟨buf2, ?_, hl2, ht2⟩
      simp only [List.map_cons] at heq ⊢
      rw [combination, heq]
      conv_rhs => rw [cartProd, List.map_flatMap]
      simp only [List.map_map, Function.comp_def]

theorem combLoop_final_total (depth : Nat) :
    ∀ (elems buf : List GoVal) (combs : List (List GoVal)),
      ∃ buf2 combs2, combLoop [] depth buf combs elems = some (buf2, combs2, none) := by
  intro elems
  induction elems with
  | nil => intro buf combs; exact ⟨buf, combs, by simp [combLoop]⟩
  | cons x xs ih =>
    intro buf combs
    obtain ⟨b2, c2, h⟩ := ih (buf.set depth x) (combs ++ [buf.set depth x])
    exact ⟨b2, c2, by rw [combLoop]; exact h⟩

/-- With at least one argument the recursion never panics, and the returned
error is `NotSliceErr` exactly when the argument at the current depth level
is not a slice: errors arising at deeper levels are discarded by the loop. -/
theorem combination_total (rest2 : List GoVal) :
    ∀ (v : GoVal) (depth : Nat) (buf : List GoVal) (combs : List (List GoVal)),
      ∃ buf2 combs2,
        combination (v :: rest2) depth buf combs =
          some (buf2, combs2, if isSliceVal v then none else some GoErr.notSlice) ∧
        (isSliceVal v = false → buf2 = buf ∧ combs2 = combs) := by
  induction rest2 with
  | nil =>
    intro v depth buf combs
    cases v with
    | slice s =>
      obtain ⟨b2, c2, h⟩ := combLoop_final_total depth s buf combs
      exact ⟨b2, c2, by rw [combination]; simpa [isSliceVal] using h, by simp [isSliceVal]⟩
    | int n =>
      refine ⟨buf, combs, ?_, fun _ => ⟨rfl, rfl⟩⟩
      simp [combination, isSliceVal]
    | nil =>
      refine ⟨buf, combs, ?_, fun _ => ⟨rfl, rfl⟩⟩
      simp [combination, isSliceVal]
  | cons w rest3 ih =>
    intro v depth buf combs
    cases v with
    | slice s =>
      suffices h : ∀ (elems buf : List GoVal) (combs : List (List GoVal)),
          ∃ b2 c2, combLoop (w :: rest3) depth buf combs elems = some (b2, c2, none) by
        obtain ⟨b2, c2, h2⟩ := h s buf combs
        exact ⟨b2, c2, by rw [combination]; simpa [isSliceVal] using h2,
          by simp [isSliceVal]⟩
      intro elems
      induction elems with
      | nil => intro buf combs; exact ⟨buf, combs, by simp [combLoop]⟩
      | cons x xs ihx =>
        intro buf combs
        obtain ⟨b2, c2, hc, _⟩ := ih w (depth + 1) (buf.set depth x) combs
        obtain ⟨b3, c3, h3⟩ := ihx b2 c2
        refine ⟨b3, c3, ?_⟩
        rw [combLoop, hc]
        exact h3
    | int n =>
      refine ⟨buf, combs, ?_, fun _ => ⟨rfl, rfl⟩⟩
      simp [combination, isSliceVal]
    | nil =>
      refine ⟨buf, combs, ?_, fun _ => ⟨rfl, rfl⟩⟩
      simp [combination, isSliceVal]

/-- Top-level form of `combination_total` for `Combination`. -/
theorem Combination_cons (v : GoVal) (rest : List GoVal) :
    ∃ combs, Combination (v :: rest) =
      some (combs, if isSliceVal v then none else some GoErr.notSlice) ∧
      (isSliceVal v = false → combs = []) := by
  obtain ⟨b2, c2, heq, hne⟩ :=
    combination_total rest v 0 (List.replicate (v :: rest).length GoVal.nil) []
  refine ⟨c2, ?_, fun h => (hne h).2⟩
  rw [Combination, heq]

/-! ### Claim theorems for the sequence utilities -/

/-- Claim C1, counterexample: the second argument `5` is not
sequence-shaped, yet `Combination([]interface{}{1}, 5)` returns no error
(and an empty result), because the loop at slice.go line 134 discards the
error returned by the recursive call. -/
theorem Combination_notSlice_swallowed :
    isSliceVal (GoVal.int 5) = false ∧
    Combination [GoVal.slice [GoVal.int 1], GoVal.int 5] = some ([], none) := by
  refine ⟨rfl, ?_⟩
  simp [Combination, combination, combLoop]

/-- Claim C1, amended: with at least one argument, `Combination` returns
`NotSequenceError` if and only if the FIRST argument is not
sequence-shaped (in which case the result is empty); a non-sequence
argument at a later position is not reported, because the recursive
call's error is discarded, and the outer variadic container is always
sequence-shaped. -/
theorem Combination_error_iff_first_arg (v : GoVal) (rest : List GoVal) :
    ∃ combs err, Combination (v :: rest) = some (combs, err) ∧
      (err = some GoErr.notSlice ↔ isSliceVal v = false) ∧
      (isSliceVal v = true ∨ combs = []) := by
  obtain ⟨combs, heq, hnil⟩ := Combination_cons v rest
  refine ⟨combs, _, heq, ?_, ?_⟩
  · cases hv : isSliceVal v <;> simp
  · cases hv : isSliceVal v
    · exact Or.inr (hnil hv)
    · exact Or.inl rfl

/-- Claim C2, counterexample: `Combination()` with zero arguments does not
return the empty result-and-nil-error pair: `slicesValue.Index(0)` panics
on the empty variadic slice (modelled by `none`). -/
theorem Combination_zero_args_no_return :
    Combination [] ≠ some ([], none) := by
  simp [Combination, combination]

/-- Claim C2, amended: calling `Combination` with zero arguments aborts
with an index-out-of-range runtime panic (model value `none`) instead of
returning a result-and-error pair. -/
theorem Combination_zero_args_panics : Combination [] = none := by
  simp [Combination, combination]

/-- Claim C3: for sequences `A`, `B` of lengths `m`, `n`,
`Combination(A, B)` returns, with no error, exactly the `m * n` 2-tuples
`(a, b)`, `a` from `A` and `b` from `B`, in row-major order (`A` outer and
slowest, `B` inner and fastest); each returned tuple is a snapshot copy of
the working buffer, which is what makes the result equal this pure
product rather than `m * n` aliases of the final buffer. -/
theorem Combination_pair_product (A B : List GoVal) :
    Combination [GoVal.slice A, GoVal.slice B] =
      some (A.flatMap (fun a => B.map (fun b => [a, b])), none) ∧
    (A.flatMap (fun a => B.map (fun b => [a, b]))).length = A.length * B.length ∧
    ∀ t ∈ A.flatMap (fun a => B.map (fun b => [a, b])),
      ∃ a, a ∈ A ∧ ∃ b, b ∈ B ∧ t = [a, b] := by
  refine ⟨?_, ?_, ?_⟩
  · obtain ⟨buf2, heq, _, _⟩ :=
      combination_slices [A, B] 0
        (List.replicate (List.length [GoVal.slice A, GoVal.slice B]) GoVal.nil) []
        (by simp) (by simp)
    simp only [List.map_cons, List.map_nil] at heq
    rw [Combination, heq, cartProd_pair]
    simp
  · induction A with
    | nil => simp
    | cons a A ihA =>
      simp only [List.flatMap_cons, List.length_append, List.length_map, ihA,
        List.length_cons]
      ring
  · intro t ht
    simp only [List.mem_flatMap, List.mem_map] at ht
    obtain ⟨a, ha, b, hb, hbt⟩ := ht
    exact ⟨a, ha, b, hb, hbt.symm⟩

/-- Claim C3, witness at `A = [1]`, `B = [2]`, also instantiating the
per-tuple membership property at the concrete tuple `[1, 2]`. -/
theorem Combination_pair_product_witness :
    Combination [GoVal.slice [GoVal.int 1], GoVal.slice [GoVal.int 2]] =
      some ([[GoVal.int 1, GoVal.int 2]], none) ∧
    ∃ a, a ∈ [GoVal.int 1] ∧ ∃ b, b ∈ [GoVal.int 2] ∧
      [GoVal.int 1, GoVal.int 2] = [a, b] :=
  ⟨(Combination_pair_product [GoVal.int 1] [GoVal.int 2]).1,
    (Combination_pair_product [GoVal.int 1] [GoVal.int 2]).2.2
      [GoVal.int 1, GoVal.int 2] (by simp)⟩

/-- Claim C4: when every argument is a sequence and at least one of them
has zero elements, `Combination` returns an empty result (and no error):
the loop at the empty level never executes, so nothing is ever appended. -/
theorem Combination_zero_len_arg (ls : List (List GoVal)) (h : [] ∈ ls) :
    Combination (ls.map GoVal.slice) = some ([], none) := by
  obtain ⟨buf2, heq, _, _⟩ :=
    combination_slices ls 0
      (List.replicate (ls.map GoVal.slice).length GoVal.nil) []
      (by rintro rfl; cases h) (by simp)
  rw [Combination, heq, cartProd_of_mem_nil ls h]
  simp

/-- Claim C4, witness: a single empty sequence argument. -/
theorem Combination_zero_len_arg_witness :
    Combination [GoVal.slice []] = some ([], none) :=
  Combination_zero_len_arg [[]] (List.mem_singleton.2 rfl)

/-! ### Helper lemmas for the Dynamic List -/

theorem AddAt_of_check_none {l : List GoVal} {pos : Int}
    (h : checkRangeForAddAt l pos = none) (objs : List GoVal) :
    AddAt l pos objs =
      (if pos = 0 then (AddFirst l objs, none)
       else if pos = Size l then (Add l objs, none)
       else (addAt l pos objs, none)) := by
  rw [AddAt, h]

theorem AddAt_of_check_some {l : List GoVal} {pos : Int} {e : String}
    (h : checkRangeForAddAt l pos = some e) (objs : List GoVal) :
    AddAt l pos objs = (l, some e) := by
  rw [AddAt, h]

theorem RemoveAt_of_check_none {l : List GoVal} {pos : Int}
    (h : checkRange l pos = none) :
    RemoveAt l pos = (l.take pos.toNat ++ l.drop (pos.toNat + 1), none) := by
  rw [RemoveAt, h]

theorem RemoveAt_of_check_some {l : List GoVal} {pos : Int} {e : String}
    (h : checkRange l pos = some e) :
    RemoveAt l pos = (l, some e) := by
  rw [RemoveAt, h]

theorem RemoveAt_atomic (l : List GoVal) (pos : Int) :
    (RemoveAt l pos).2 = none ∨ (RemoveAt l pos).1 = l := by
  cases h : checkRange l pos with
  | some e => right; rw [RemoveAt_of_check_some h]
  | none => left; rw [RemoveAt_of_check_none h]

theorem removeAux_atomic (l : List GoVal) (obj : GoVal) :
    ∀ (elems : List GoVal) (i : Nat),
      (removeAux l obj elems i).2 = none ∨ (removeAux l obj elems i).1 = l := by
  intro elems
  induction elems with
  | nil => intro i; right; rfl
  | cons x xs ih =>
    intro i
    by_cases hx : x = obj
    · rw [removeAux, if_pos hx]; exact RemoveAt_atomic l i
    · rw [removeAux, if_neg hx]; exact ih (i + 1)

theorem checkRangeForAddAt_zero (l : List GoVal) :
    checkRangeForAddAt l 0 = none := by
  simp only [checkRangeForAddAt, Size]
  split_ifs with h
  · rcases h with h | h <;> omega
  · rfl

theorem checkRangeForAddAt_size (l : List GoVal) :
    checkRangeForAddAt l (Size l) = none := by
  simp only [checkRangeForAddAt, Size]
  split_ifs with h
  · rcases h with h | h <;> omega
  · rfl

theorem removeAux_not_mem (l : List GoVal) (obj : GoVal) :
    ∀ (elems : List GoVal) (i : Nat), obj ∉ elems →
      removeAux l obj elems i = (l, some (elementNotFoundErr obj)) := by
  intro elems
  induction elems with
  | nil => intro i _; rfl
  | cons x xs ih =>
    intro i h
    rw [removeAux, if_neg (by rintro rfl; exact h (List.mem_cons_self _ _))]
    exact ih (i + 1) (fun hx => h (List.mem_cons_of_mem x hx))

theorem removeAux_found (l : List GoVal) (obj : GoVal) :
    ∀ (pre post : List GoVal) (i : Nat), obj ∉ pre →
      removeAux l obj (pre ++ obj :: post) i = RemoveAt l ((i + pre.length : Nat) : Int) := by
  intro pre
  induction pre with
  | nil =>
    intro post i _
    rw [List.nil_append, removeAux, if_pos rfl]
    norm_num
  | cons p pre ih =>
    intro post i h
    rw [List.cons_append, removeAux,
      if_neg (by rintro rfl; exact h (List.mem_cons_self _ _))]
    rw [ih post (i + 1) (fun hx => h (List.mem_cons_of_mem p hx))]
    congr 1
    simp only [List.length_cons]
    omega

theorem indexOfAux_not_mem (obj : GoVal) :
    ∀ (elems : List GoVal) (i : Nat), obj ∉ elems → indexOfAux obj elems i = -1 := by
  intro elems
  induction elems with
  | nil => intro i _; rfl
  | cons x xs ih =>
    intro i h
    rw [indexOfAux, if_neg (by rintro rfl; exact h (List.mem_cons_self _ _))]
    exact ih (i + 1) (fun hx => h (List.mem_cons_of_mem x hx))

theorem indexOfAux_ge (obj : GoVal) :
    ∀ (elems : List GoVal) (i : Nat), obj ∈ elems →
      (i : Int) ≤ indexOfAux obj elems i := by
  intro elems
  induction elems with
  | nil => intro i h; cases h
  | cons x xs ih =>
    intro i h
    by_cases hx : x = obj
    · rw [indexOfAux, if_pos hx]
    · rw [indexOfAux, if_neg hx]
      have hmem : obj ∈ xs := by
        rcases List.mem_cons.1 h with h1 | h2
        · exact absurd h1.symm hx
        · exact h2
      have := ih (i + 1) hmem
      push_cast at this ⊢
      omega

theorem indexOfAux_le (obj : GoVal) :
    ∀ (elems : List GoVal) (i j : Nat), j < elems.length →
      elems.getD j GoVal.nil = obj → indexOfAux obj elems i ≤ (i : Int) + j := by
  intro elems
  induction elems with
  | nil => intro i j hj _; simp at hj
  | cons x xs ih =>
    intro i j hj hg
    by_cases hx : x = obj
    · rw [indexOfAux, if_pos hx]; omega
    · rw [indexOfAux, if_neg hx]
      cases j with
      | zero => exact absurd (by simpa using hg) hx
      | succ j2 =>
        have := ih (i + 1) j2 (by simp at hj; omega) (by simpa using hg)
        push_cast at this ⊢
        omega

theorem lastIndexOfAux_none (l : List GoVal) (obj : GoVal) :
    ∀ n : Nat, (∀ j, j < n → l.getD j GoVal.nil ≠ obj) →
      lastIndexOfAux l obj n = -1 := by
  intro n
  induction n with
  | zero => intro _; rfl
  | succ m ih =>
    intro h
    rw [lastIndexOfAux, if_neg (h m (by omega))]
    exact ih (fun j hj => h j (by omega))

theorem lastIndexOfAux_ge (l : List GoVal) (obj : GoVal) :
    ∀ (n j : Nat), j < n → l.getD j GoVal.nil = obj →
      (j : Int) ≤ lastIndexOfAux l obj n := by
  intro n
  induction n with
  | zero => intro j hj _; omega
  | succ m ih =>
    intro j hj hg
    by_cases hm : l.getD m GoVal.nil = obj
    · rw [lastIndexOfAux, if_pos hm]; omega
    · rw [lastIndexOfAux, if_neg hm]
      have hjm : j < m := by
        rcases Nat.lt_succ_iff_lt_or_eq.1 hj with h1 | h1
        · exact h1
        · exact absurd (h1 ▸ hg) hm
      exact ih j hjm hg

theorem getD_of_mem {l : List GoVal} {obj : GoVal} (h : obj ∈ l) :
    ∃ j, j < l.length ∧ l.getD j GoVal.nil = obj := by
  obtain ⟨n, hn, he⟩ := List.getElem_of_mem h
  exact ⟨n, hn, by simp [List.getD_eq_getElem?_getD, List.getElem?_eq_getElem hn, he]⟩

theorem getD_not_mem {l : List GoVal} {obj : GoVal} (h : obj ∉ l) :
    ∀ j, j < l.length → l.getD j GoVal.nil ≠ obj := by
  intro j hj he
  have hg : l.getD j GoVal.nil = l[j] := by
    simp [List.getD_eq_getElem?_getD, List.getElem?_eq_getElem hj]
  exact h (he ▸ hg ▸ List.getElem_mem hj)

/-! ### Claim theorems for the Dynamic List -/

/-- Claim C5: every mutating Dynamic List operation is atomic: whenever
`AddAt`, `RemoveAt` or `Remove` returns an error, the element sequence is
the one from before the call (each operation either returns no error or
leaves the list unchanged). -/
theorem list_mutations_atomic (l : List GoVal) (pos : Int) (objs : List GoVal)
    (obj : GoVal) :
    ((AddAt l pos objs).2 = none ∨ (AddAt l pos objs).1 = l) ∧
    ((RemoveAt l pos).2 = none ∨ (RemoveAt l pos).1 = l) ∧
    ((Remove l obj).2 = none ∨ (Remove l obj).1 = l) := by
  refine ⟨?_, RemoveAt_atomic l pos, removeAux_atomic l obj l 0⟩
  cases h : checkRangeForAddAt l pos with
  | some e => right; rw [AddAt_of_check_some h]
  | none =>
    left
    rw [AddAt_of_check_none h]
    split_ifs <;> rfl

/-- Claim C6: the `AddAt` delegations are observably equivalent to the
general insertion path `addAt`: at position `0` (where `AddAt` delegates
to `AddFirst`) and at position `size` (where it delegates to `Add`) the
resulting list contents equal those of `addAt` at the same position, with
no error. -/
theorem AddAt_delegates_like_addAt (l objs : List GoVal) :
    AddAt l 0 objs = (addAt l 0 objs, none) ∧
    AddAt l (Size l) objs = (addAt l (Size l) objs, none) := by
  constructor
  · rw [AddAt_of_check_none (checkRangeForAddAt_zero l), if_pos rfl]
    simp [AddFirst, addAt]
  · rw [AddAt_of_check_none (checkRangeForAddAt_size l)]
    by_cases h0 : (Size l : Int) = 0
    · have hl : l = [] := by
        simpa [Size, List.length_eq_zero] using h0
      subst hl
      simp [AddFirst, Add, addAt, Size]
    · rw [if_neg h0, if_pos rfl]
      simp only [Add, addAt, Size, Int.toNat_natCast, List.take_length,
        List.drop_length, List.append_nil]

/-- Claim C7: `Remove(target)` removes exactly the first structurally
equal occurrence, keeping every other element (later duplicates included)
in order; when no occurrence exists it returns the element-not-found
error and leaves the list unchanged. -/
theorem Remove_first_occurrence (l pre post : List GoVal) (obj : GoVal) :
    (obj ∉ l → Remove l obj = (l, some (elementNotFoundErr obj))) ∧
    (l = pre ++ obj :: post → obj ∉ pre → Remove l obj = (pre ++ post, none)) := by
  constructor
  · intro h
    exact removeAux_not_mem l obj l 0 h
  · intro hl h
    subst hl
    rw [Remove, removeAux_found _ obj pre post 0 h]
    have hck : checkRange (pre ++ obj :: post) ((0 + pre.length : Nat) : Int) = none := by
      simp only [checkRange, Size]
      split_ifs with hc
      · rcases hc with hc | hc <;> simp at hc <;> omega
      · rfl
    rw [RemoveAt_of_check_none hck]
    simp only [Nat.zero_add, Int.toNat_natCast]
    rw [List.take_left' rfl]
    congr 1
    rw [List.drop_append 1]
    simp

/-- Claim C7, witness: removing `2` from `[1, 2, 3, 2]` keeps the later
duplicate `2`, and removing `2` from `[1]` fails leaving the list
unchanged. -/
theorem Remove_first_occurrence_witness :
    Remove [GoVal.int 1, GoVal.int 2, GoVal.int 3, GoVal.int 2] (GoVal.int 2) =
      ([GoVal.int 1, GoVal.int 3, GoVal.int 2], none) ∧
    Remove [GoVal.int 1] (GoVal.int 2) =
      ([GoVal.int 1], some (elementNotFoundErr (GoVal.int 2))) :=
  ⟨(Remove_first_occurrence [GoVal.int 1, GoVal.int 2, GoVal.int 3, GoVal.int 2]
      [GoVal.int 1] [GoVal.int 3, GoVal.int 2] (GoVal.int 2)).2 rfl (by simp),
    (Remove_first_occurrence [GoVal.int 1] [] [] (GoVal.int 2)).1 (by simp)⟩

/-- Claim C8: the Dynamic List error messages embed their operands: the
index-out-of-range message contains the decimal renderings of both the
offending position and the size at call time, the element-not-found
message contains the `%v` rendering of the missing target, and `Get(5)`
on a 3-element list fails with exactly the index-out-of-range error built
from position 5 and size 3. -/
theorem list_error_messages (pos size : Int) (obj : GoVal) (l : List GoVal)
    (h : l.length = 3) :
    (toString pos).toList <:+: (indexOutOfRangeErr pos size).toList ∧
    (toString size).toList <:+: (indexOutOfRangeErr pos size).toList ∧
    (goRender obj).toList <:+: (elementNotFoundErr obj).toList ∧
    Get l 5 = (GoVal.nil, some (indexOutOfRangeErr 5 3)) ∧
    (toString (5 : Int)).toList <:+: (indexOutOfRangeErr 5 3).toList ∧
    (toString (3 : Int)).toList <:+: (indexOutOfRangeErr 5 3).toList := by
  have hidx : ∀ p s : Int,
      (toString p).toList <:+: (indexOutOfRangeErr p s).toList ∧
      (toString s).toList <:+: (indexOutOfRangeErr p s).toList := by
    intro p s
    constructor
    · exact ⟨"Index ".toList,
        (" is out of range from a list size of ".toList ++ (toString s).toList),
        by simp [indexOutOfRangeErr]⟩
    · exact ⟨"Index ".toList ++ (toString p).toList ++
        " is out of range from a list size of ".toList, [],
        by simp [indexOutOfRangeErr]⟩
  refine ⟨(hidx pos size).1, (hidx pos size).2, ?_, ?_, (hidx 5 3).1, (hidx 5 3).2⟩
  · exact ⟨[], " element was not found in this list.".toList,
      by simp [elementNotFoundErr]⟩
  · have hc : (5 : Int) > Size l - 1 ∨ (5 : Int) < 0 := by
      left; rw [Size, h]; norm_num
    have hck : checkRange l 5 = some (indexOutOfRangeErr 5 (Size l)) := by
      rw [checkRange, if_pos hc]
    rw [Get, hck]
    simp [Size, h]

/-- Claim C8, witness on the concrete list `[1, 2, 3]`. -/
theorem list_error_messages_witness :
    Get [GoVal.int 1, GoVal.int 2, GoVal.int 3] 5 =
      (GoVal.nil, some (indexOutOfRangeErr 5 3)) :=
  (list_error_messages 7 4 (GoVal.int 9)
    [GoVal.int 1, GoVal.int 2, GoVal.int 3] rfl).2.2.2.1

/-- Claim C9: in `Map` and `Select` the sequence-shape check precedes the
nil-callback check: a non-sequence collection yields `NotSequenceError`
even when the callback is nil, and the nil-callback errors only arise for
sequence-shaped collections. -/
theorem Map_Select_check_order (v : GoVal) (hv : isSliceVal v = false)
    (mf : Option (GoVal → GoVal)) (sf : Option (GoVal → Bool))
    (xs : List GoVal) :
    Map v mf = ([], some GoErr.notSlice) ∧
    Select v sf = ([], some GoErr.notSlice) ∧
    Map (GoVal.slice xs) none = ([], some GoErr.nilMapFunc) ∧
    Select (GoVal.slice xs) none = ([], some GoErr.nilSelectFunc) := by
  refine ⟨?_, ?_, rfl, rfl⟩ <;> cases v <;> first
    | rfl
    | simp [isSliceVal] at hv

/-- Claim C9, witness: a non-sequence collection together with a nil
callback yields `NotSliceErr`, not the nil-callback error. -/
theorem Map_Select_check_order_witness :
    Map (GoVal.int 0) none = ([], some GoErr.notSlice) :=
  (Map_Select_check_order (GoVal.int 0) rfl none none []).1

/-- Claim C10: `IndexOf` and `LastIndexOf` scan with the same structural
equality, so one returns the not-found sentinel `-1` exactly when the
other does, and the first matching index never exceeds the last one (when
both are `-1` the inequality holds trivially, which subsumes the claim's
conditional form). -/
theorem IndexOf_LastIndexOf_relation (l : List GoVal) (obj : GoVal) :
    (IndexOf l obj = -1 ↔ LastIndexOf l obj = -1) ∧
    IndexOf l obj ≤ LastIndexOf l obj := by
  by_cases hm : obj ∈ l
  · obtain ⟨j, hj, hg⟩ := getD_of_mem hm
    have h1 : (0 : Int) ≤ IndexOf l obj := by
      simpa using indexOfAux_ge obj l 0 hm
    have h2 : IndexOf l obj ≤ (0 : Int) + j := indexOfAux_le obj l 0 j hj hg
    have h3 : (j : Int) ≤ LastIndexOf l obj := lastIndexOfAux_ge l obj l.length j hj hg
    exact ⟨by constructor <;> intro he <;> omega, by omega⟩
  · have h1 : IndexOf l obj = -1 := indexOfAux_not_mem obj l 0 hm
    have h2 : LastIndexOf l obj = -1 :=
      lastIndexOfAux_none l obj l.length (getD_not_mem hm)
    rw [h1, h2]
    exact ⟨Iff.rfl, le_refl _⟩

end GoUtils
